import Mathlib

/-!
Verification of the ECFFT repository's 2x2 matrix primitive
(`src/utils/matrix.rs`) and the BLS12-381 parameter loading
(`src/bls12_381.rs`) against its natural-language specification.

Field elements are modelled over an arbitrary field with decidable
equality (the Rust code is generic over `F: PrimeField`); the concrete
BLS12-381 base field is modelled as `ZMod p` for the 381-bit prime `p`.
Rust panics (division by zero, `unwrap`, `expect`) are modelled as
`Option.none` so that failing computations return no value.
-/

set_option autoImplicit false
set_option linter.unusedSectionVars false

namespace ECFFT

variable {F : Type} [Field F] [DecidableEq F]

/-- 2x2 matrix `[[a, b], [c, d]]` of field elements, after
`Matrix<T>(pub [[T; 2]; 2])` in `src/utils/matrix.rs`. -/
structure Matrix (F : Type) where
  a : F
  b : F
  c : F
  d : F
deriving DecidableEq

/-- Determinant `a * d - b * c` as computed inside `Matrix::inverse`. -/
def Matrix.det (m : Matrix F) : F :=
  m.a * m.d - m.b * m.c

/-- `Matrix::inverse`: entrywise division by `det = a * d - b * c`.
In Rust each `_ / det` panics when `det` is zero (field division
unwraps the inverse), modelled here by returning `none`. -/
def Matrix.inverse (m : Matrix F) : Option (Matrix F) :=
  if m.a * m.d - m.b * m.c = 0 then none
  else
    some ⟨m.d / (m.a * m.d - m.b * m.c), -m.b / (m.a * m.d - m.b * m.c),
      -m.c / (m.a * m.d - m.b * m.c), m.a / (m.a * m.d - m.b * m.c)⟩

/-- `Matrix::multiply`: `[a*x + b*y, c*x + d*y]` for `v = [x, y]`. -/
def Matrix.multiply (m : Matrix F) (v : F × F) : F × F :=
  (m.a * v.1 + m.b * v.2, m.c * v.1 + m.d * v.2)

/-- `Matrix::multiply_in_place`: computes both components into
temporaries from the original `x, y`, then assigns; the final values
of the two mutated bindings are returned as a pair. -/
def Matrix.multiply_in_place (m : Matrix F) (x y : F) : F × F :=
  let a := m.a * x + m.b * y
  let b := m.c * x + m.d * y
  (a, b)

/-- The mathematical matrix-vector product named by the spec
(`apply(m, (x, y)) -> (x', y')` = matrix-vector product). -/
def matVecSpec (m : Matrix F) (v : F × F) : F × F :=
  (m.a * v.1 + m.b * v.2, m.c * v.1 + m.d * v.2)

/-- The mathematical 2x2 matrix product, used to state the spec's
inverse law `m' · m = m · m' = identity`. -/
def Matrix.mmul (m n : Matrix F) : Matrix F :=
  ⟨m.a * n.a + m.b * n.c, m.a * n.b + m.b * n.d,
   m.c * n.a + m.d * n.c, m.c * n.b + m.d * n.d⟩

/-- The 2x2 identity matrix. -/
def Matrix.identity : Matrix F :=
  ⟨1, 0, 0, 1⟩

/-- Worker for `splitWhitespace`, carrying the current token reversed. -/
def splitWhitespaceAux : List Char → List Char → List (List Char)
  | [], [] => []
  | [], cur => [cur.reverse]
  | ch :: rest, cur =>
    if ch.isWhitespace then
      if cur.isEmpty then splitWhitespaceAux rest []
      else cur.reverse :: splitWhitespaceAux rest []
    else splitWhitespaceAux rest (ch :: cur)

/-- Rust `str::split_whitespace`: the maximal whitespace-free substrings,
in order, empty substrings dropped. -/
def splitWhitespace (s : String) : List String :=
  (splitWhitespaceAux s.toList []).map List.asString

/-- Decimal digits to a number, most significant digit first; `none` on
any non-digit character. -/
def digitsToNat : List Char → Nat → Option Nat
  | [], acc => some acc
  | ch :: rest, acc =>
    if ch.isDigit then digitsToNat rest (10 * acc + (ch.toNat - 48))
    else none

/-- Rust `str::parse::<u64>()`: an optional leading plus sign followed
by at least one decimal digit, value below `2^64`; `none` models the
`unwrap` panic on a malformed token or overflow. -/
def parseU64 (s : String) : Option Nat :=
  let cs := s.toList
  let ds := if cs.head? = some '+' then cs.tail else cs
  match ds with
  | [] => none
  | _ =>
    match digitsToNat ds 0 with
    | some n => if n < 2 ^ 64 then some n else none
    | none => none

/-- Effect of Rust `iterator.map(f).collect()` where each application of
`f` may panic (`unwrap`): the whole collection fails if any element
fails, and no partial result is produced. -/
def mapOpt {α β : Type} (f : α → Option β) : List α → Option (List β)
  | [] => some []
  | x :: rest =>
    match f x, mapOpt f rest with
    | some y, some ys => some (y :: ys)
    | _, _ => none

/-- Worker for `chunks`; the fuel bounds the number of chunks still to
be produced and is consumed once per chunk. -/
def chunksGo {α : Type} (n : Nat) : Nat → List α → List (List α)
  | 0, _ => []
  | _ + 1, [] => []
  | fuel + 1, x :: rest => (x :: rest).take n :: chunksGo n fuel ((x :: rest).drop n)

/-- Rust `slice::chunks(n)`: consecutive pieces of `n` elements each,
the last piece possibly shorter (the sources never call it with
`n = 0`). -/
def chunks {α : Type} (n : Nat) (l : List α) : List (List α) :=
  chunksGo n l.length l

/-- Value of a little-endian list of 64-bit limbs, as stored by
`BigInteger384::new([u64; 6])`. -/
def limbsToNat : List Nat → Nat
  | [] => 0
  | x :: rest => x + 2 ^ 64 * limbsToNat rest

/-- The BLS12-381 base field modulus. -/
def blsP : Nat :=
  0x1a0111ea397fe69a4b1ba7b6434bacd764774b84f38512bf6730d2a0f6b0f6241eabfffeb153ffffb9feffffffffaaab

/-- The BLS12-381 base field `ark_bls12_381::Fq`, modelled as `ZMod blsP`. -/
abbrev Fq : Type := ZMod blsP

/-- `BigInteger384::new(chunk).into()`: the field element whose canonical
big-integer representation is the little-endian limb value (the
collaborator field library's parse-from-limbs operation). -/
def ofLimbs (chunk : List Nat) : Fq :=
  (limbsToNat chunk : Fq)

/-- `NUM_LIMBS`: number of 64-bit limbs per field element. -/
def NUM_LIMBS : Nat := 6

/-- `Bls12381Parameters::LOG_N`. -/
def LOG_N : Nat := 15

/-- `Bls12381Parameters::N = 1 << LOG_N`. -/
def N : Nat := Nat.shiftLeft 1 LOG_N

/-- Body of `Bls12381Parameters::coset` after the file read: parse every
whitespace-separated token as a `u64` (`parse().unwrap()`), chunk the
numbers into groups of `NUM_LIMBS`, and convert each group — which
`try_into().unwrap()` requires to hold exactly `NUM_LIMBS` limbs — into
a field element, in file order. -/
def cosetOfTokens (tokens : List String) : Option (List Fq) :=
  match mapOpt parseU64 tokens with
  | none => none
  | some nums =>
    mapOpt (fun chunk => if chunk.length = NUM_LIMBS then some (ofLimbs chunk) else none)
      (chunks NUM_LIMBS nums)

/-- `Bls12381Parameters::coset` applied to the contents of the
`bls12-381_coset` table file. -/
def coset (content : String) : Option (List Fq) :=
  cosetOfTokens (splitWhitespace content)

/-- `Bls12381Parameters::coset` including the
`std::fs::read_to_string(..).expect(..)` step: `none` stands for a
missing or unreadable file. -/
def cosetFromFile (file : Option String) : Option (List Fq) :=
  file.bind coset

/-- Degree-2 over degree-1 rational map, after `Isogeny<F>` in
`src/utils/isogeny.rs` (that file lies outside the given sources; the
field layout `numerator: [F; 3]`, `denominator: [F; 2]` is fixed by the
constructor call in `src/bls12_381.rs` and the spec's Rational Map data
model). -/
structure Isogeny (F : Type) where
  numerator : F × F × F
  denominator : F × F
deriving DecidableEq

/-- One chunk of `Bls12381Parameters::isogenies`: slices
`chunk[i * NUM_LIMBS..(i + 1) * NUM_LIMBS]` for `i = 0..3` build the
numerator and `i = 3..5` the denominator; the slicing panics (`none`)
when the chunk holds fewer than `5 * NUM_LIMBS` limbs. -/
def mkIsogeny (chunk : List Nat) : Option (Isogeny Fq) :=
  if 5 * NUM_LIMBS ≤ chunk.length then
    some
      { numerator :=
          (ofLimbs ((chunk.drop 0).take NUM_LIMBS),
           ofLimbs ((chunk.drop NUM_LIMBS).take NUM_LIMBS),
           ofLimbs ((chunk.drop (2 * NUM_LIMBS)).take NUM_LIMBS)),
        denominator :=
          (ofLimbs ((chunk.drop (3 * NUM_LIMBS)).take NUM_LIMBS),
           ofLimbs ((chunk.drop (4 * NUM_LIMBS)).take NUM_LIMBS)) }
  else none

/-- The rational map one full `5 * NUM_LIMBS`-limb chunk describes:
the numerator coefficients are the first three limb-groups of the chunk
in order, the denominator coefficients the last two in order. -/
def isogenyOfChunk (c : List Nat) : Isogeny Fq :=
  ⟨(ofLimbs (c.take NUM_LIMBS),
    ofLimbs ((c.drop NUM_LIMBS).take NUM_LIMBS),
    ofLimbs ((c.drop (2 * NUM_LIMBS)).take NUM_LIMBS)),
   (ofLimbs ((c.drop (3 * NUM_LIMBS)).take NUM_LIMBS),
    ofLimbs ((c.drop (4 * NUM_LIMBS)).take NUM_LIMBS))⟩

/-- Body of `Bls12381Parameters::isogenies` after the file read: parse
all tokens as `u64`, chunk into groups of `5 * NUM_LIMBS`, and build one
rational map per chunk, in file order. -/
def isogeniesOfTokens (tokens : List String) : Option (List (Isogeny Fq)) :=
  match mapOpt parseU64 tokens with
  | none => none
  | some nums => mapOpt mkIsogeny (chunks (5 * NUM_LIMBS) nums)

/-- `Bls12381Parameters::isogenies` applied to the contents of the
`bls12-381_isogenies` table file. -/
def isogenies (content : String) : Option (List (Isogeny Fq)) :=
  isogeniesOfTokens (splitWhitespace content)

/-- `Bls12381Parameters::isogenies` including the
`std::fs::read_to_string(..).expect(..)` step. -/
def isogeniesFromFile (file : Option String) : Option (List (Isogeny Fq)) :=
  file.bind isogenies

/-- Modelled from the spec: the `bls12-381_isogenies` parameter table is
generated offline by `get_params.sage` and its contents are not part of
the sources; per the spec it is a flat whitespace-separated list of
decimal limb integers forming one chunk of `5 * NUM_LIMBS` limbs per
halving level, `LOG_N - 1` chunks in total, ordered from the finest
level to the coarsest. -/
def specIsogenyTable (tokens : List String) : Prop :=
  ∃ nums : List Nat, mapOpt parseU64 tokens = some nums ∧
    nums.length = (LOG_N - 1) * (5 * NUM_LIMBS)

end ECFFT

namespace ECFFT

variable {F : Type} [Field F] [DecidableEq F]

theorem inverse_eq_some_of_det_ne_zero (m : Matrix F) (h : m.det ≠ 0) :
    m.inverse = some ⟨m.d / m.det, -m.b / m.det, -m.c / m.det, m.a / m.det⟩ := by
  rcases m with ⟨a, b, c, d⟩
  simp only [Matrix.det] at h ⊢
  simp only [Matrix.inverse, if_neg h]

/-- C1 For every 2x2 matrix `m` of field elements with non-zero
determinant and every pair `v`, `inverse(m)` succeeds and
`multiply(inverse(m), multiply(m, v)) == v == multiply(m, multiply(inverse(m), v))`. -/
theorem matrix_inverse_law (m : Matrix F) (v : F × F) (h : m.det ≠ 0) :
    ∃ mi : Matrix F, m.inverse = some mi ∧
      mi.multiply (m.multiply v) = v ∧ m.multiply (mi.multiply v) = v := by
  refine ⟨_, inverse_eq_some_of_det_ne_zero m h, ?_, ?_⟩ <;>
    · rcases m with ⟨a, b, c, d⟩
      rcases v with ⟨x, y⟩
      simp only [Matrix.det] at h
      simp only [Matrix.multiply, Matrix.det, Prod.mk.injEq]
      constructor <;> (field_simp; ring)

instance fact_prime_5 : Fact (Nat.Prime 5) :=
  ⟨by norm_num⟩

/-- C1 witness: the law instantiated on a concrete invertible matrix
over `ZMod 5`. -/
theorem matrix_inverse_law_witness :
    ∃ mi : Matrix (ZMod 5), (⟨1, 2, 3, 4⟩ : Matrix (ZMod 5)).inverse = some mi ∧
      mi.multiply ((⟨1, 2, 3, 4⟩ : Matrix (ZMod 5)).multiply (2, 3)) = (2, 3) ∧
      (⟨1, 2, 3, 4⟩ : Matrix (ZMod 5)).multiply (mi.multiply (2, 3)) = (2, 3) :=
  matrix_inverse_law ⟨1, 2, 3, 4⟩ (2, 3) (by decide)

/-- C2 For a matrix with non-zero determinant, `inverse` returns
exactly the closed form `det⁻¹ * [[d, -b], [-c, a]]`, and the matrix
products `inverse(m) * m` and `m * inverse(m)` are both the identity. -/
theorem matrix_inverse_closed_form (m : Matrix F) (h : m.det ≠ 0) :
    ∃ mi : Matrix F, m.inverse = some mi ∧
      mi = ⟨m.det⁻¹ * m.d, m.det⁻¹ * -m.b, m.det⁻¹ * -m.c, m.det⁻¹ * m.a⟩ ∧
      mi.mmul m = Matrix.identity ∧ m.mmul mi = Matrix.identity := by
  refine ⟨_, inverse_eq_some_of_det_ne_zero m h, ?_, ?_, ?_⟩ <;>
    · rcases m with ⟨a, b, c, d⟩
      simp only [Matrix.det] at h
      simp only [Matrix.det, Matrix.mmul, Matrix.identity, Matrix.mk.injEq]
      refine ⟨?_, ?_, ?_, ?_⟩ <;> (field_simp; try ring)

/-- C2 witness: the closed form and identity products on a concrete
invertible matrix over `ZMod 5`. -/
theorem matrix_inverse_closed_form_witness :
    ∃ mi : Matrix (ZMod 5), (⟨1, 2, 3, 4⟩ : Matrix (ZMod 5)).inverse = some mi ∧
      mi = ⟨(⟨1, 2, 3, 4⟩ : Matrix (ZMod 5)).det⁻¹ * 4,
        (⟨1, 2, 3, 4⟩ : Matrix (ZMod 5)).det⁻¹ * -2,
        (⟨1, 2, 3, 4⟩ : Matrix (ZMod 5)).det⁻¹ * -3,
        (⟨1, 2, 3, 4⟩ : Matrix (ZMod 5)).det⁻¹ * 1⟩ ∧
      mi.mmul ⟨1, 2, 3, 4⟩ = Matrix.identity ∧
      (⟨1, 2, 3, 4⟩ : Matrix (ZMod 5)).mmul mi = Matrix.identity :=
  matrix_inverse_closed_form ⟨1, 2, 3, 4⟩ (by decide)

/-- C3 `multiply` is the matrix-vector product `[a*x + b*y, c*x + d*y]`,
and `multiply_in_place` computes both components from the original
values and leaves the bindings holding exactly `multiply(m, [x, y])`. -/
theorem multiply_in_place_refines_multiply (m : Matrix F) (x y : F) :
    m.multiply (x, y) = matVecSpec m (x, y) ∧
    m.multiply_in_place x y = m.multiply (x, y) :=
  ⟨rfl, rfl⟩

/-- C4 `inverse` fails (models the division-by-zero panic) exactly when
the determinant is zero, and succeeds on every matrix with non-zero
determinant. -/
theorem inverse_fails_iff_det_zero (m : Matrix F) :
    (m.inverse = none ↔ m.det = 0) ∧
    (m.det ≠ 0 → (m.inverse).isSome = true) := by
  rcases m with ⟨a, b, c, d⟩
  simp only [Matrix.inverse, Matrix.det]
  by_cases h : a * d - b * c = 0 <;> simp [h]

/-- C4 witness: a singular matrix fails, an invertible one succeeds,
over `ZMod 5`. -/
theorem inverse_fails_iff_det_zero_witness :
    ((⟨1, 1, 1, 1⟩ : Matrix (ZMod 5)).inverse = none ↔
      (⟨1, 1, 1, 1⟩ : Matrix (ZMod 5)).det = 0) ∧
    ((⟨1, 2, 3, 4⟩ : Matrix (ZMod 5)).inverse).isSome = true :=
  ⟨(inverse_fails_iff_det_zero ⟨1, 1, 1, 1⟩).1,
   (inverse_fails_iff_det_zero ⟨1, 2, 3, 4⟩).2 (by decide)⟩

/-- C10 Inversion is an involution on invertible matrices: the inverse
has determinant `det(m)⁻¹` (hence non-zero) and inverting it again
returns `m` entrywise. -/
theorem matrix_inverse_involution (m : Matrix F) (h : m.det ≠ 0) :
    ∃ mi : Matrix F, m.inverse = some mi ∧ mi.det = m.det⁻¹ ∧
      mi.det ≠ 0 ∧ mi.inverse = some m := by
  rcases m with ⟨a, b, c, d⟩
  simp only [Matrix.det] at h ⊢
  have hdet2 : d / (a * d - b * c) * (a / (a * d - b * c)) -
      -b / (a * d - b * c) * (-c / (a * d - b * c)) = (a * d - b * c)⁻¹ := by
    rw [div_mul_div_comm, div_mul_div_comm, neg_mul_neg, div_sub_div_same,
      show d * a - b * c = a * d - b * c from by ring]
    exact div_mul_cancel_left₀ h _
  refine ⟨⟨d / (a * d - b * c), -b / (a * d - b * c), -c / (a * d - b * c),
    a / (a * d - b * c)⟩, ?_, ?_, ?_, ?_⟩
  · simp only [Matrix.inverse, if_neg h]
  · simp only [Matrix.det]
    exact hdet2
  · simp only [Matrix.det]
    rw [hdet2]
    exact inv_ne_zero h
  · simp only [Matrix.inverse, hdet2, if_neg (inv_ne_zero h), Option.some.injEq,
      Matrix.mk.injEq]
    refine ⟨?_, ?_, ?_, ?_⟩ <;> (field_simp)

/-- C10 witness: involution on a concrete invertible matrix over
`ZMod 5`. -/
theorem matrix_inverse_involution_witness :
    ∃ mi : Matrix (ZMod 5), (⟨1, 2, 3, 4⟩ : Matrix (ZMod 5)).inverse = some mi ∧
      mi.det = (⟨1, 2, 3, 4⟩ : Matrix (ZMod 5)).det⁻¹ ∧ mi.det ≠ 0 ∧
      mi.inverse = some ⟨1, 2, 3, 4⟩ :=
  matrix_inverse_involution ⟨1, 2, 3, 4⟩ (by decide)

theorem chunksGo_eq_of_le {α : Type} (n : Nat) (hn : 0 < n) :
    ∀ f1 f2 : Nat, ∀ l : List α, l.length ≤ f1 → l.length ≤ f2 →
      chunksGo n f1 l = chunksGo n f2 l := by
  intro f1
  induction f1 with
  | zero =>
    intro f2 l h1 _
    have hl : l = [] := List.eq_nil_of_length_eq_zero (Nat.le_zero.mp h1)
    subst hl
    cases f2 <;> rfl
  | succ f ih =>
    intro f2 l h1 h2
    cases l with
    | nil => cases f2 <;> rfl
    | cons x rest =>
      cases f2 with
      | zero => simp at h2
      | succ f2 =>
        simp only [chunksGo]
        congr 1
        apply ih
        · simp only [List.length_drop, List.length_cons] at *
          omega
        · simp only [List.length_drop, List.length_cons] at *
          omega

theorem chunks_nil {α : Type} (n : Nat) : chunks n ([] : List α) = [] := rfl

theorem chunks_cons_eq {α : Type} (n : Nat) (hn : 0 < n) (l : List α) (hl : l ≠ []) :
    chunks n l = l.take n :: chunks n (l.drop n) := by
  cases l with
  | nil => exact absurd rfl hl
  | cons x rest =>
    show chunksGo n (rest.length + 1) (x :: rest) = _
    simp only [chunksGo]
    congr 1
    apply chunksGo_eq_of_le n hn
    · simp only [List.length_drop, List.length_cons]
      omega
    · exact le_rfl

theorem chunks_of_length_mul {α : Type} (n : Nat) (hn : 0 < n) :
    ∀ k : Nat, ∀ l : List α, l.length = k * n →
      (chunks n l).length = k ∧ ∀ c ∈ chunks n l, c.length = n := by
  intro k
  induction k with
  | zero =>
    intro l hl
    have : l = [] := List.eq_nil_of_length_eq_zero (by simpa using hl)
    subst this
    simp [chunks_nil]
  | succ k ih =>
    intro l hl
    rw [Nat.succ_mul] at hl
    have hne : l ≠ [] := by
      intro h
      subst h
      simp at hl
      omega
    have hlen : n ≤ l.length := by omega
    rw [chunks_cons_eq n hn l hne]
    have hdl : (l.drop n).length = k * n := by
      simp only [List.length_drop]
      omega
    obtain ⟨h1, h2⟩ := ih (l.drop n) hdl
    refine ⟨by simp [h1], ?_⟩
    intro c hc
    rcases List.mem_cons.mp hc with h | h
    · subst h
      simp only [List.length_take]
      omega
    · exact h2 c h

theorem chunksGo_forall_length_dvd {α : Type} (n : Nat) (hn : 0 < n) :
    ∀ fuel : Nat, ∀ l : List α, l.length ≤ fuel →
      (∀ c ∈ chunksGo n fuel l, c.length = n) → n ∣ l.length := by
  intro fuel
  induction fuel with
  | zero =>
    intro l h1 _
    have hl : l = [] := List.eq_nil_of_length_eq_zero (Nat.le_zero.mp h1)
    subst hl
    simp
  | succ f ih =>
    intro l h1 hall
    cases l with
    | nil => simp
    | cons x rest =>
      have htake : ((x :: rest).take n).length = n :=
        hall _ (List.mem_cons_self _ _)
      rw [List.length_take, List.length_cons] at htake
      have hrec := ih ((x :: rest).drop n)
        (by simp only [List.length_drop, List.length_cons] at *; omega)
        (fun c hc => hall c (List.mem_cons_of_mem _ hc))
      rw [List.length_drop, List.length_cons] at hrec
      obtain ⟨t, ht⟩ := hrec
      refine ⟨t + 1, ?_⟩
      rw [Nat.mul_succ]
      simp only [List.length_cons]
      omega

theorem chunks_all_length_dvd {α : Type} (n : Nat) (hn : 0 < n) (l : List α)
    (h : ∀ c ∈ chunks n l, c.length = n) : n ∣ l.length :=
  chunksGo_forall_length_dvd n hn l.length l le_rfl h

theorem chunksGo_length_le {α : Type} (n : Nat) :
    ∀ fuel : Nat, ∀ l : List α, ∀ c ∈ chunksGo n fuel l, c.length ≤ n := by
  intro fuel
  induction fuel with
  | zero => intro l c hc; simp [chunksGo] at hc
  | succ f ih =>
    intro l c hc
    cases l with
    | nil => simp [chunksGo] at hc
    | cons x rest =>
      rcases List.mem_cons.mp hc with h | h
      · subst h
        simp only [List.length_take]
        omega
      · exact ih _ c h

theorem chunks_length_le {α : Type} (n : Nat) (l : List α) :
    ∀ c ∈ chunks n l, c.length ≤ n :=
  chunksGo_length_le n l.length l

theorem mapOpt_eq_some_of_forall {α β : Type} (f : α → Option β) (g : α → β) :
    ∀ l : List α, (∀ x ∈ l, f x = some (g x)) → mapOpt f l = some (l.map g) := by
  intro l
  induction l with
  | nil => intro _; rfl
  | cons x rest ih =>
    intro h
    simp only [mapOpt, h x (List.mem_cons_self _ _),
      ih (fun y hy => h y (List.mem_cons_of_mem _ hy)), List.map_cons]

theorem mapOpt_eq_none_of_mem {α β : Type} (f : α → Option β) :
    ∀ l : List α, ∀ x ∈ l, f x = none → mapOpt f l = none := by
  intro l
  induction l with
  | nil => intro x hx; simp at hx
  | cons y rest ih =>
    intro x hx hfx
    rcases List.mem_cons.mp hx with h | h
    · subst h
      simp only [mapOpt, hfx]
    · simp only [mapOpt, ih x h hfx]
      cases f y <;> rfl

theorem mapOpt_length {α β : Type} (f : α → Option β) :
    ∀ l : List α, ∀ ys : List β, mapOpt f l = some ys → ys.length = l.length := by
  intro l
  induction l with
  | nil =>
    intro ys h
    simp only [mapOpt, Option.some.injEq] at h
    subst h
    rfl
  | cons x rest ih =>
    intro ys h
    simp only [mapOpt] at h
    cases hfx : f x with
    | none => rw [hfx] at h; simp at h
    | some y =>
      rw [hfx] at h
      cases hrest : mapOpt f rest with
      | none => rw [hrest] at h; simp at h
      | some zs =>
        rw [hrest] at h
        simp only [Option.some.injEq] at h
        subst h
        simp [ih zs hrest]

theorem mkIsogeny_eq_some (c : List Nat) (hc : 5 * NUM_LIMBS ≤ c.length) :
    mkIsogeny c = some (isogenyOfChunk c) := by
  unfold mkIsogeny
  rw [if_pos hc]
  unfold isogenyOfChunk
  rw [List.drop_zero]

theorem mapOpt_parseU64_replicate_zero :
    ∀ n : Nat, mapOpt parseU64 (List.replicate n "0") = some (List.replicate n 0) := by
  intro n
  induction n with
  | zero => rfl
  | succ n ih =>
    rw [List.replicate_succ, List.replicate_succ]
    simp only [mapOpt, ih]
    rfl

/-- C6 `coset()` parses the table as whitespace-separated decimal
integers, groups them sequentially into limb-groups of exactly
`NUM_LIMBS = 6`, converts each group into the field element with that
canonical big-integer representation, and returns the elements in file
order, the output length being the number of integers divided by 6. -/
theorem coset_parses_limb_groups (content : String) (nums : List Nat) (k : Nat)
    (hparse : mapOpt parseU64 (splitWhitespace content) = some nums)
    (hlen : nums.length = k * NUM_LIMBS) :
    coset content = some ((chunks NUM_LIMBS nums).map ofLimbs) ∧
    ((chunks NUM_LIMBS nums).map ofLimbs).length = nums.length / NUM_LIMBS ∧
    nums.length / NUM_LIMBS = k := by
  have hn : 0 < NUM_LIMBS := by decide
  obtain ⟨h1, h2⟩ := chunks_of_length_mul NUM_LIMBS hn k nums hlen
  have hmap : mapOpt
      (fun chunk => if chunk.length = NUM_LIMBS then some (ofLimbs chunk) else none)
      (chunks NUM_LIMBS nums) = some ((chunks NUM_LIMBS nums).map ofLimbs) :=
    mapOpt_eq_some_of_forall _ _ _ (fun c hc => by rw [if_pos (h2 c hc)])
  refine ⟨?_, ?_, ?_⟩
  · simp only [coset, cosetOfTokens, hparse, hmap]
  · rw [List.length_map, h1, hlen, Nat.mul_div_cancel _ hn]
  · rw [hlen, Nat.mul_div_cancel _ hn]

/-- C6 witness: a six-limb table yields exactly one field element. -/
theorem coset_parses_limb_groups_witness :
    coset "1 2 3 4 5 6" =
      some ((chunks NUM_LIMBS [1, 2, 3, 4, 5, 6]).map ofLimbs) ∧
    ((chunks NUM_LIMBS [1, 2, 3, 4, 5, 6]).map ofLimbs).length =
      ([1, 2, 3, 4, 5, 6] : List Nat).length / NUM_LIMBS ∧
    ([1, 2, 3, 4, 5, 6] : List Nat).length / NUM_LIMBS = 1 :=
  coset_parses_limb_groups "1 2 3 4 5 6" [1, 2, 3, 4, 5, 6] 1 (by rfl) (by decide)

/-- C7 `isogenies()` reads the table in chunks of `5 * NUM_LIMBS = 30`
limbs; each chunk yields one rational map whose numerator coefficients
are the chunk's first three limb-groups in order and whose denominator
coefficients are the last two in order, and the maps are returned in
the order their chunks appear in the file. -/
theorem isogenies_parses_chunks (content : String) (nums : List Nat) (k : Nat)
    (hparse : mapOpt parseU64 (splitWhitespace content) = some nums)
    (hlen : nums.length = k * (5 * NUM_LIMBS)) :
    ∃ maps : List (Isogeny Fq), isogenies content = some maps ∧
      maps = (chunks (5 * NUM_LIMBS) nums).map isogenyOfChunk ∧
      maps.length = k := by
  obtain ⟨h1, h2⟩ := chunks_of_length_mul (5 * NUM_LIMBS) (by decide) k nums hlen
  have hmap : mapOpt mkIsogeny (chunks (5 * NUM_LIMBS) nums) =
      some ((chunks (5 * NUM_LIMBS) nums).map isogenyOfChunk) :=
    mapOpt_eq_some_of_forall _ _ _
      (fun c hc => mkIsogeny_eq_some c (le_of_eq (h2 c hc).symm))
  refine ⟨_, ?_, rfl, ?_⟩
  · simp only [isogenies, isogeniesOfTokens, hparse, hmap]
  · rw [List.length_map, h1]

/-- C7 witness: a thirty-limb table yields exactly one rational map,
built from its five limb-groups. -/
theorem isogenies_parses_chunks_witness :
    ∃ maps : List (Isogeny Fq),
      isogenies "0 0 0 0 0 0 0 0 0 0 0 0 0 0 0 0 0 0 0 0 0 0 0 0 0 0 0 0 0 0" =
        some maps ∧
      maps = (chunks (5 * NUM_LIMBS) (List.replicate 30 0)).map isogenyOfChunk ∧
      maps.length = 1 :=
  isogenies_parses_chunks "0 0 0 0 0 0 0 0 0 0 0 0 0 0 0 0 0 0 0 0 0 0 0 0 0 0 0 0 0 0"
    (List.replicate 30 0) 1 (by rfl) (by decide)

/-- C8 Loading returns no value at all when the table file is missing or
unreadable, when some token does not parse as a decimal integer, or when
the total integer count is not a whole number of limb-groups (a multiple
of 6 for the coset table, of 30 for the isogeny table). -/
theorem load_failure_modes :
    (cosetFromFile none = none ∧ isogeniesFromFile none = none) ∧
    (∀ content t, t ∈ splitWhitespace content → parseU64 t = none →
      coset content = none ∧ isogenies content = none) ∧
    (∀ content nums, mapOpt parseU64 (splitWhitespace content) = some nums →
      (¬ NUM_LIMBS ∣ nums.length → coset content = none) ∧
      (¬ (5 * NUM_LIMBS) ∣ nums.length → isogenies content = none)) := by
  refine ⟨⟨rfl, rfl⟩, ?_, ?_⟩
  · intro content t ht hpt
    have hnone := mapOpt_eq_none_of_mem parseU64 (splitWhitespace content) t ht hpt
    exact ⟨by simp only [coset, cosetOfTokens, hnone],
           by simp only [isogenies, isogeniesOfTokens, hnone]⟩
  · intro content nums hparse
    constructor
    · intro hdvd
      have hnotall : ¬ ∀ c ∈ chunks NUM_LIMBS nums, c.length = NUM_LIMBS :=
        fun hall => hdvd (chunks_all_length_dvd NUM_LIMBS (by decide) nums hall)
      push_neg at hnotall
      obtain ⟨c, hc, hne⟩ := hnotall
      have hchk : (if c.length = NUM_LIMBS then some (ofLimbs c) else none) = none :=
        if_neg hne
      have hmap := mapOpt_eq_none_of_mem
        (fun chunk => if chunk.length = NUM_LIMBS then some (ofLimbs chunk) else none)
        (chunks NUM_LIMBS nums) c hc hchk
      simp only [coset, cosetOfTokens, hparse, hmap]
    · intro hdvd
      have hnotall : ¬ ∀ c ∈ chunks (5 * NUM_LIMBS) nums, c.length = 5 * NUM_LIMBS :=
        fun hall => hdvd (chunks_all_length_dvd (5 * NUM_LIMBS) (by decide) nums hall)
      push_neg at hnotall
      obtain ⟨c, hc, hne⟩ := hnotall
      have hle := chunks_length_le (5 * NUM_LIMBS) nums c hc
      have hmk : mkIsogeny c = none := by
        unfold mkIsogeny
        rw [if_neg (by omega)]
      have hmap := mapOpt_eq_none_of_mem _ (chunks (5 * NUM_LIMBS) nums) c hc hmk
      simp only [isogenies, isogeniesOfTokens, hparse, hmap]

/-- C8 witness: a non-numeric token and a wrong limb count both fail. -/
theorem load_failure_modes_witness :
    coset "abc" = none ∧ isogenies "1 2 3" = none :=
  ⟨(load_failure_modes.2.1 "abc" "abc" (by decide) (by rfl)).1,
   (load_failure_modes.2.2 "1 2 3" [1, 2, 3] (by rfl)).2 (by decide)⟩

/-- C5 On a table of the shape the spec prescribes, `isogenies()`
returns an ordered sequence of rational maps of length exactly
`LOG_N - 1 = 14`, one per chunk in file (level) order. -/
theorem isogenies_length_eq (tokens : List String) (h : specIsogenyTable tokens) :
    ∃ maps : List (Isogeny Fq), isogeniesOfTokens tokens = some maps ∧
      maps.length = LOG_N - 1 ∧ LOG_N - 1 = 14 := by
  obtain ⟨nums, hparse, hlen⟩ := h
  obtain ⟨h1, h2⟩ :=
    chunks_of_length_mul (5 * NUM_LIMBS) (by decide) (LOG_N - 1) nums hlen
  have hmap : mapOpt mkIsogeny (chunks (5 * NUM_LIMBS) nums) =
      some ((chunks (5 * NUM_LIMBS) nums).map isogenyOfChunk) :=
    mapOpt_eq_some_of_forall _ _ _
      (fun c hc => mkIsogeny_eq_some c (le_of_eq (h2 c hc).symm))
  refine ⟨(chunks (5 * NUM_LIMBS) nums).map isogenyOfChunk, ?_, ?_, rfl⟩
  · simp only [isogeniesOfTokens, hparse, hmap]
  · rw [List.length_map, h1]

/-- C5 witness: a table of `14 * 30` limbs yields fourteen maps. -/
theorem isogenies_length_eq_witness :
    ∃ maps : List (Isogeny Fq),
      isogeniesOfTokens (List.replicate 420 "0") = some maps ∧
      maps.length = LOG_N - 1 ∧ LOG_N - 1 = 14 :=
  isogenies_length_eq (List.replicate 420 "0")
    ⟨List.replicate 420 0, mapOpt_parseU64_replicate_zero 420,
      by rw [List.length_replicate]; rfl⟩

/-- C9 The BLS12-381 parameter set exposes `LOG_N = 15` and
`N = 2^LOG_N = 32768`. -/
theorem log_n_and_n_values : LOG_N = 15 ∧ N = 2 ^ LOG_N ∧ N = 32768 :=
  ⟨rfl, by decide, by decide⟩

end ECFFT
